import Mathlib

/-
  Verification development for the AutoGrading test harness
  (src/AutoGrading.py).  Raw text is modelled as List Char, transcripts as
  List (List Char).  Pure functions of the source (the normalizer
  read_and_normalize, the differ get_diff together with the parts of the
  standard difflib library it invokes, the manifest point parser, the
  discovery loop and the scoring loop of run_tests) are translated into
  executable Lean definitions; the behaviour of the two child processes
  (what output they produce, whether spawning or a stdin write raises) is
  an oracle recorded in the per-case data.
-/

namespace AutoGrading

/-! ## Character and list-of-char helpers (Python string primitives) -/

/-- The whitespace characters recognised by Python str.split with no
arguments and by str.strip, i.e. the characters whose str.isspace holds. -/
def isPySpace (c : Char) : Bool :=
  c == ' ' || c == '\t' || c == '\n' || c == '\r' || c == '\x0b' || c == '\x0c' ||
  c == '\x1c' || c == '\x1d' || c == '\x1e' || c == '\x1f' || c == '\u0085' || c == '\u00a0' ||
  c == '\u1680' || c == '\u2000' || c == '\u2001' || c == '\u2002' || c == '\u2003' ||
  c == '\u2004' || c == '\u2005' || c == '\u2006' || c == '\u2007' || c == '\u2008' ||
  c == '\u2009' || c == '\u200a' || c == '\u2028' || c == '\u2029' || c == '\u202f' ||
  c == '\u205f' || c == '\u3000'

/-- startsWith s pat: pat is a leading segment of s. -/
def startsWith : List Char → List Char → Bool
  | _, [] => true
  | [], _ :: _ => false
  | c :: cs, p :: ps => c == p && startsWith cs ps

/-- occurs pat s: pat occurs somewhere in s as a contiguous segment. -/
def occurs : List Char → List Char → Bool
  | pat, [] => startsWith [] pat
  | pat, c :: cs => startsWith (c :: cs) pat || occurs pat cs

/-- Python str.replace: replace every occurrence of pat by rep, scanning left
to right and never rescanning replaced text.  The source only invokes it with
the nonempty literals CRLF, CR and the prompt string, so the empty-pattern
behaviour of Python (which inserts rep between all characters) is not
modelled; the pat = nil branch returns s unchanged. -/
def listReplaceGo (pat rep : List Char) : Nat → List Char → List Char
  | 0, s => s
  | fuel + 1, s =>
    if pat = [] then s
    else if startsWith s pat then
      rep ++ listReplaceGo pat rep fuel (s.drop pat.length)
    else
      match s with
      | [] => []
      | c :: cs => c :: listReplaceGo pat rep fuel cs

/-- Entry point: with a nonempty pattern every step consumes at least one
character of s, so s.length + 1 units of fuel reproduce the untruncated
recursion exactly. -/
def listReplace (s pat rep : List Char) : List Char :=
  listReplaceGo pat rep (s.length + 1) s

/-- Python str.split(sep) with a one-character separator: split at every
occurrence, keeping empty pieces; the result always has one more piece than
there are separators. -/
def splitOnChar (sep : Char) : List Char → List (List Char)
  | [] => [[]]
  | c :: cs =>
    if c == sep then [] :: splitOnChar sep cs
    else
      match splitOnChar sep cs with
      | [] => [[c]]
      | h :: t => (c :: h) :: t

/-- Worker for Python str.split() with no arguments: cur holds the current
word reversed. -/
def splitWsAux : List Char → List Char → List (List Char)
  | [], cur => if cur = [] then [] else [cur.reverse]
  | c :: cs, cur =>
    if isPySpace c then
      if cur = [] then splitWsAux cs []
      else cur.reverse :: splitWsAux cs []
    else splitWsAux cs (c :: cur)

/-- Python str.split() with no arguments: maximal runs of non-whitespace. -/
def splitWs (l : List Char) : List (List Char) := splitWsAux l []

/-- Python " ".join on a list of words. -/
def joinWithSpace : List (List Char) → List Char
  | [] => []
  | [w] => w
  | w :: w2 :: ws => w ++ ' ' :: joinWithSpace (w2 :: ws)

/-- One line of the normalizer: " ".join(line.split()), collapsing every
whitespace run to a single space and trimming the ends. -/
def collapseWs (l : List Char) : List Char := joinWithSpace (splitWs l)

/-- The while-pop loop of read_and_normalize: drop trailing empty lines. -/
def popTrailingEmpty (l : List (List Char)) : List (List Char) :=
  (l.reverse.dropWhile (fun x => x == [])).reverse

/-- The interactive prompt literal erased by the normalizer. -/
def prompt : List Char := "Enter ProductId to query (Press Enter to exit):".data

/-- read_and_normalize of src/AutoGrading.py (inner function of get_diff),
acting on the raw file contents: normalize CRLF and CR to LF, erase the
prompt everywhere, split into lines, collapse whitespace per line, drop
empty lines, then pop trailing empty lines. -/
def read_and_normalize (raw : List Char) : List (List Char) :=
  popTrailingEmpty
    (((splitOnChar '\n'
        (listReplace
          (listReplace (listReplace raw ('\r' :: '\n' :: []) ('\n' :: []))
            ('\r' :: []) ('\n' :: []))
          prompt [])).map collapseWs).filter (fun l => !(l == [])))

/-- Rejoining normalized lines with the canonical terminator, used to state
the idempotence claim about the normalizer. -/
def joinLinesNL : List (List Char) → List Char
  | [] => []
  | [l] => l
  | l :: l2 :: ls => l ++ '\n' :: joinLinesNL (l2 :: ls)

/-! ## Python int() on manifest values -/

/-- Strip Python whitespace from both ends (str.strip as used by int()). -/
def stripPyWs (l : List Char) : List Char :=
  ((l.dropWhile isPySpace).reverse.dropWhile isPySpace).reverse

/-- Decimal digit value of an ASCII digit.  Python int() additionally accepts
non-ASCII decimal digits; manifest files are ASCII so only these are
modelled. -/
def digitVal (c : Char) : Option Nat :=
  if '0' ≤ c ∧ c ≤ '9' then some (c.toNat - 48) else none

/-- Digits with optional single underscores between digits, after the first
digit has been consumed (Python int() literal grammar). -/
def pdGo : List Char → Nat → Option Nat
  | [], acc => some acc
  | '_' :: c :: cs, acc =>
    match digitVal c with
    | some d => pdGo cs (acc * 10 + d)
    | none => none
  | ['_'], _ => none
  | c :: cs, acc =>
    match digitVal c with
    | some d => pdGo cs (acc * 10 + d)
    | none => none

/-- A nonempty digit string with single underscores allowed between digits. -/
def parseDigitsUnd : List Char → Option Nat
  | [] => none
  | c :: cs =>
    match digitVal c with
    | some d => pdGo cs d
    | none => none

/-- Python int(s) for a str argument: strip whitespace, optional sign,
then an underscore-separated digit string; None models ValueError. -/
def pyStrToInt (s : List Char) : Option Int :=
  match stripPyWs s with
  | '+' :: rest => (parseDigitsUnd rest).map (fun n => (n : Int))
  | '-' :: rest => (parseDigitsUnd rest).map (fun n => -(n : Int))
  | t => (parseDigitsUnd t).map (fun n => (n : Int))

/-- The JSON values a manifest "points" field can hold in this model.
JSON arrays, objects and floats are left out: the data model declares the
field as string or integer, and the claims only need one value of a
non-convertible type, for which null serves. -/
inductive PyJson where
  | str (s : String)
  | int (n : Int)
  | bool (b : Bool)
  | null
deriving DecidableEq

/-- The Python exceptions the modelled code can raise. -/
inductive PyErr where
  | valueError
  | typeError
  | attributeError
deriving DecidableEq

/-- Python int(x) on a manifest value: strings parse or raise ValueError,
ints pass through, bools are ints in Python, and null (NoneType) raises
TypeError. -/
def pyInt : PyJson → Except PyErr Int
  | .str s =>
    match pyStrToInt s.data with
    | some n => .ok n
    | none => .error .valueError
  | .int n => .ok n
  | .bool b => .ok (if b then 1 else 0)
  | .null => .error .typeError

/-- Lines 166-173 of run_tests: points = meta.get("points", "0");
try points_value = int(points) except ValueError: points_value = 0.
Only ValueError is caught; any other exception escapes run_tests. -/
def parsePointsField (v : Option PyJson) : Except PyErr Int :=
  match pyInt (v.getD (.str "0")) with
  | .ok n => .ok n
  | .error .valueError => .ok 0
  | .error e => .error e

/-! ## difflib, specialized to the call in get_diff
SequenceMatcher(None, a, b) with autojunk=True: isjunk is None, so the junk
set is empty and the junk extension loops of find_longest_match never fire;
the popular-entry heuristic is active when b has at least 200 lines. -/

/-- Ascending list of indices j with b[j] = x (the b2j entry for x). -/
def indicesOf (b : List (List Char)) (x : List Char) : List Nat :=
  ((List.range b.length).filter (fun j => b.getD j [] == x))

/-- b2j lookup after the autojunk purge: entries of a popular element
(more than n/100 + 1 occurrences when n >= 200) are deleted. -/
def b2jGet (b : List (List Char)) (x : List Char) : List Nat :=
  let idxs := indicesOf b x
  if b.length ≥ 200 ∧ idxs.length > b.length / 100 + 1 then [] else idxs

/-- Lookup with default 0 in the j2len dictionary (association list). -/
def alGet (l : List (Nat × Nat)) (k : Nat) : Nat :=
  (((l.find? (fun p => p.1 == k)).map Prod.snd)).getD 0

/-- Inner loop of find_longest_match over b2j[a[i]]: skip j < blo, stop at
j >= bhi, chain lengths via j2len, track the best (i-k+1, j-k+1, k). -/
def flmInner (blo bhi i : Nat) (old : List (Nat × Nat)) :
    List Nat → List (Nat × Nat) → Nat × Nat × Nat → List (Nat × Nat) × (Nat × Nat × Nat)
  | [], new, best => (new, best)
  | j :: js, new, best =>
    if j < blo then flmInner blo bhi i old js new best
    else if bhi ≤ j then (new, best)
    else
      let k := (if j = 0 then 0 else alGet old (j - 1)) + 1
      let best2 := if k > best.2.2 then (i + 1 - k, j + 1 - k, k) else best
      flmInner blo bhi i old js ((j, k) :: new) best2

/-- Outer loop of find_longest_match over i in range(alo, ahi). -/
def flmScan (a b : List (List Char)) (alo ahi blo bhi : Nat) : Nat × Nat × Nat :=
  (((List.range' alo (ahi - alo)).foldl
    (fun st i => flmInner blo bhi i st.1 (b2jGet b (a.getD i [])) [] st.2)
    ([], (alo, blo, 0)))).2

/-- Extension of the best match to the left while preceding elements are
equal (the junk set is empty, so the not-junk guard always holds).  The
loop decrements besti while alo < besti, so running it with fuel = besti
reproduces it exactly: when the fuel hits 0, besti is 0 and the guard is
false anyway. -/
def extendLeftGo (a b : List (List Char)) (alo blo : Nat) :
    Nat → Nat → Nat → Nat → Nat × Nat × Nat
  | 0, besti, bestj, bestsize => (besti, bestj, bestsize)
  | fuel + 1, besti, bestj, bestsize =>
    if alo < besti ∧ blo < bestj ∧ a.getD (besti - 1) [] = b.getD (bestj - 1) [] then
      extendLeftGo a b alo blo fuel (besti - 1) (bestj - 1) (bestsize + 1)
    else (besti, bestj, bestsize)

def extendLeft (a b : List (List Char)) (alo blo : Nat) (besti bestj bestsize : Nat) :
    Nat × Nat × Nat :=
  extendLeftGo a b alo blo besti besti bestj bestsize

/-- Extension of the best match to the right while following elements are
equal.  The loop increments bestsize while besti + bestsize < ahi, so
fuel = ahi - (besti + bestsize) reproduces it exactly: at fuel 0 the guard
is false as well. -/
def extendRightGo (a b : List (List Char)) (ahi bhi : Nat) :
    Nat → Nat → Nat → Nat → Nat
  | 0, _, _, bestsize => bestsize
  | fuel + 1, besti, bestj, bestsize =>
    if besti + bestsize < ahi ∧ bestj + bestsize < bhi ∧
        a.getD (besti + bestsize) [] = b.getD (bestj + bestsize) [] then
      extendRightGo a b ahi bhi fuel besti bestj (bestsize + 1)
    else bestsize

def extendRight (a b : List (List Char)) (ahi bhi : Nat) (besti bestj bestsize : Nat) :
    Nat :=
  extendRightGo a b ahi bhi (ahi - (besti + bestsize)) besti bestj bestsize

/-- SequenceMatcher.find_longest_match on [alo, ahi) x [blo, bhi). -/
def find_longest_match (a b : List (List Char)) (alo ahi blo bhi : Nat) :
    Nat × Nat × Nat :=
  let s := flmScan a b alo ahi blo bhi
  let e := extendLeft a b alo blo s.1 s.2.1 s.2.2
  (e.1, e.2.1, extendRight a b ahi bhi e.1 e.2.1 e.2.2)

/-- Queue loop of get_matching_blocks.  The Python queue is a stack popped
from its end; it is modelled head-first, pushing the two subintervals in
reverse order so the pop order is identical.  The loop is driven by fuel:
every iteration pops one interval and pushes subintervals only when a
nonempty match was found, in which case the total interval size shrinks by
at least 2, so 2*(la+lb)+2 iterations always suffice (see
get_matching_blocks). -/
def gmbLoop (a b : List (List Char)) :
    Nat → List (Nat × Nat × Nat × Nat) → List (Nat × Nat × Nat) → List (Nat × Nat × Nat)
  | 0, _, acc => acc
  | _ + 1, [], acc => acc
  | fuel + 1, (alo, ahi, blo, bhi) :: rest, acc =>
    let m := find_longest_match a b alo ahi blo bhi
    let i := m.1
    let j := m.2.1
    let k := m.2.2
    if k = 0 then gmbLoop a b fuel rest acc
    else
      let rest1 := if i + k < ahi ∧ j + k < bhi then (i + k, ahi, j + k, bhi) :: rest else rest
      let rest2 := if alo < i ∧ blo < j then (alo, i, blo, j) :: rest1 else rest1
      gmbLoop a b fuel rest2 ((i, j, k) :: acc)

/-- Lexicographic order on matching-block triples (Python tuple order). -/
def tripLe (x y : Nat × Nat × Nat) : Bool :=
  if x.1 ≠ y.1 then decide (x.1 < y.1)
  else if x.2.1 ≠ y.2.1 then decide (x.2.1 < y.2.1)
  else decide (x.2.2 ≤ y.2.2)

/-- Insertion into an ascending list of triples. -/
def insertTrip (x : Nat × Nat × Nat) : List (Nat × Nat × Nat) → List (Nat × Nat × Nat)
  | [] => [x]
  | y :: ys => if tripLe x y then x :: y :: ys else y :: insertTrip x ys

/-- matching_blocks.sort() of get_matching_blocks. -/
def sortBlocks : List (Nat × Nat × Nat) → List (Nat × Nat × Nat)
  | [] => []
  | x :: xs => insertTrip x (sortBlocks xs)

/-- The adjacent-block collapsing loop of get_matching_blocks, carrying the
running block (i1, j1, k1) initialised to (0, 0, 0). -/
def collapseBlocks : List (Nat × Nat × Nat) → Nat → Nat → Nat → List (Nat × Nat × Nat)
  | [], i1, j1, k1 => if k1 ≠ 0 then [(i1, j1, k1)] else []
  | (i2, j2, k2) :: rest, i1, j1, k1 =>
    if i1 + k1 = i2 ∧ j1 + k1 = j2 then collapseBlocks rest i1 j1 (k1 + k2)
    else (if k1 ≠ 0 then [(i1, j1, k1)] else []) ++ collapseBlocks rest i2 j2 k2

/-- SequenceMatcher.get_matching_blocks. -/
def get_matching_blocks (a b : List (List Char)) : List (Nat × Nat × Nat) :=
  let la := a.length
  let lb := b.length
  let raw := gmbLoop a b (2 * (la + lb) + 2) [(0, la, 0, lb)] []
  collapseBlocks (sortBlocks raw) 0 0 0 ++ [(la, lb, 0)]

/-- Opcode tags of SequenceMatcher.get_opcodes. -/
inductive DTag where
  | equal
  | replace
  | delete
  | insert
deriving DecidableEq

/-- One opcode (tag, i1, i2, j1, j2). -/
structure Opcode where
  tag : DTag
  a1 : Nat
  a2 : Nat
  b1 : Nat
  b2 : Nat
deriving DecidableEq

/-- The loop of get_opcodes over the matching blocks. -/
def opcodesLoop : List (Nat × Nat × Nat) → Nat → Nat → List Opcode
  | [], _, _ => []
  | (ai, bj, size) :: rest, i, j =>
    let pre : List Opcode :=
      if i < ai ∧ j < bj then [⟨.replace, i, ai, j, bj⟩]
      else if i < ai then [⟨.delete, i, ai, j, bj⟩]
      else if j < bj then [⟨.insert, i, ai, j, bj⟩]
      else []
    pre ++ (if size ≠ 0 then [⟨.equal, ai, ai + size, bj, bj + size⟩] else []) ++
      opcodesLoop rest (ai + size) (bj + size)

/-- SequenceMatcher.get_opcodes. -/
def get_opcodes (a b : List (List Char)) : List Opcode :=
  opcodesLoop (get_matching_blocks a b) 0 0

/-- get_grouped_opcodes: clip a leading equal run to n context lines. -/
def clipHead (n : Nat) : List Opcode → List Opcode
  | ⟨.equal, i1, i2, j1, j2⟩ :: rest =>
    ⟨.equal, max i1 (i2 - n), i2, max j1 (j2 - n), j2⟩ :: rest
  | l => l

/-- get_grouped_opcodes: clip a trailing equal run to n context lines. -/
def clipLastOp (n : Nat) (l : List Opcode) : List Opcode :=
  match l.getLast? with
  | some ⟨.equal, i1, i2, j1, j2⟩ =>
    l.dropLast ++ [⟨.equal, i1, min i2 (i1 + n), j1, min j2 (j1 + n)⟩]
  | _ => l

/-- get_grouped_opcodes: the final yield, skipped for an empty group or a
single equal opcode. -/
def finalGroup : List Opcode → List (List Opcode)
  | [] => []
  | [op] => if op.tag = DTag.equal then [] else [[op]]
  | g => [g]

/-- The grouping loop of get_grouped_opcodes: split groups at equal runs
longer than 2n, keeping n context lines on each side. -/
def groupLoop (n : Nat) : List Opcode → List Opcode → List (List Opcode)
  | [], group => finalGroup group
  | op :: rest, group =>
    if op.tag = DTag.equal ∧ op.a2 - op.a1 > n + n then
      (group ++ [⟨.equal, op.a1, min op.a2 (op.a1 + n), op.b1, min op.b2 (op.b1 + n)⟩]) ::
        groupLoop n rest [⟨.equal, max op.a1 (op.a2 - n), op.a2, max op.b1 (op.b2 - n), op.b2⟩]
    else groupLoop n rest (group ++ [op])

/-- SequenceMatcher.get_grouped_opcodes with the default n = 3 used by
unified_diff. -/
def get_grouped_opcodes (a b : List (List Char)) : List (List Opcode) :=
  let codes0 := get_opcodes a b
  let codes1 := if codes0 = [] then [⟨DTag.equal, 0, 1, 0, 1⟩] else codes0
  groupLoop 3 (clipLastOp 3 (clipHead 3 codes1)) []

/-- Decimal digits of n, most significant first (worker with fuel n+1). -/
def natDigitsAux : Nat → Nat → List Char → List Char
  | 0, _, acc => acc
  | fuel + 1, n, acc =>
    if n = 0 then acc
    else natDigitsAux fuel (n / 10) (Char.ofNat (48 + n % 10) :: acc)

/-- Decimal representation of a natural number. -/
def natToChars (n : Nat) : List Char :=
  if n = 0 then ['0'] else natDigitsAux (n + 1) n []

/-- difflib._format_range_unified. -/
def format_range_unified (start stop : Nat) : List Char :=
  let beginning := start + 1
  let len := stop - start
  if len = 1 then natToChars beginning
  else natToChars (if len = 0 then beginning - 1 else beginning) ++ ',' :: natToChars len

/-- Python list slice a[i:j]. -/
def sliceList (l : List (List Char)) (i j : Nat) : List (List Char) :=
  (l.drop i).take (j - i)

/-- The body lines of one unified-diff hunk. -/
def hunkBody (a b : List (List Char)) (g : List Opcode) : List (List Char) :=
  List.flatten (g.map (fun op =>
    match op.tag with
    | .equal => (sliceList a op.a1 op.a2).map (fun l => ' ' :: l)
    | .delete => (sliceList a op.a1 op.a2).map (fun l => '-' :: l)
    | .insert => (sliceList b op.b1 op.b2).map (fun l => '+' :: l)
    | .replace =>
      (sliceList a op.a1 op.a2).map (fun l => '-' :: l) ++
        (sliceList b op.b1 op.b2).map (fun l => '+' :: l)))

/-- The @@ header line of one hunk. -/
def hunkHeader (g : List Opcode) : List Char :=
  match g with
  | [] => []
  | first :: rest =>
    let lastOp := rest.getLastD first
    "@@ -".data ++ format_range_unified first.a1 lastOp.a2 ++
      " +".data ++ format_range_unified first.b1 lastOp.b2 ++ " @@\n".data

/-- difflib.unified_diff(a, b, fromfile="expected", tofile="actual",
lineterm="\n") as the list of yielded strings: the two header lines once
before the first group, then one @@ line and the body per group. -/
def unified_diff (a b : List (List Char)) : List (List Char) :=
  match get_grouped_opcodes a b with
  | [] => []
  | g :: gs =>
    "--- expected\n".data :: "+++ actual\n".data ::
      List.flatten ((g :: gs).map (fun grp => hunkHeader grp :: hunkBody a b grp))

/-- get_diff of src/AutoGrading.py on the contents of the two files:
None when the normalized line sequences are equal, otherwise the label,
" mismatch:\n" and the joined unified diff truncated to 2000 characters. -/
def get_diff (file1 file2 label : List Char) : Option (List Char) :=
  if read_and_normalize file1 = read_and_normalize file2 then none
  else
    some (label ++ " mismatch:\n".data ++
      (List.flatten (unified_diff (read_and_normalize file1) (read_and_normalize file2))).take 2000)

/-- get_diff on Lean strings (file contents and label). -/
def get_diffS (f1 f2 label : String) : Option String :=
  (get_diff f1.data f2.data label.data).map (fun l => String.mk l)

/-! ## The suite runner (run_tests of src/AutoGrading.py)

One directory entry of the test-cases folder carries its discovery data
(lines 136-149), the manifest fields (lines 166-169), the contents of the
two golden transcript files, and the environment oracle for the one run the
case would perform: whether Popen raises, at which input index a
stdin.write would raise, and the contents the two capture threads leave in
the student record files. -/

structure CaseDir where
  name : String
  isDir : Bool
  hasMeta : Bool
  hasClientRecord : Bool
  hasServerRecord : Bool
  inputs : List String
  pointsField : Option PyJson
  clientRecord : String
  serverRecord : String
  spawnError : Option String
  stdinFailIndex : Option Nat
  capturedClient : String
  capturedServer : String
deriving DecidableEq

/-- The arguments of run_tests together with the filesystem and launcher
facts it consults: whether the two artifact paths exist, the paths
themselves, and shutil.which("dotnet"). -/
structure Config where
  entries : List CaseDir
  clientPathExists : Bool
  serverPathExists : Bool
  clientPath : String
  serverPath : String
  dotnetPath : Option String
deriving DecidableEq

/-- Discovery loop of run_tests (lines 136-149): keep the subdirectories
that have meta.json, record/client_record.txt and record/server_record.txt. -/
def discover : List CaseDir → List CaseDir
  | [] => []
  | e :: rest =>
    if e.isDir && e.hasMeta && e.hasClientRecord && e.hasServerRecord
    then e :: discover rest
    else discover rest

/-- ASCII lower case (Python str.lower restricted to ASCII paths). -/
def asciiLower (c : Char) : Char :=
  if 'A' ≤ c ∧ c ≤ 'Z' then Char.ofNat (c.toNat + 32) else c

/-- path.lower().endswith(".dll"). -/
def endsWithDll (path : String) : Bool :=
  startsWith (path.data.map asciiLower).reverse (".dll".data.reverse)

/-- _build_command_for_path (lines 106-117): a .dll path needs the dotnet
launcher and yields None when shutil.which("dotnet") fails; any other path
is returned as the command itself. -/
def build_command_for_path (path : String) (dotnetPath : Option String) :
    Option (List String) :=
  if endsWithDll path then
    match dotnetPath with
    | none => none
    | some d => some [d, path]
  else some [path]

/-- The inputs the feed loop (lines 222-231) actually writes: writing stops
at the first failing stdin.write, so later inputs are never sent. -/
def writtenInputs (c : CaseDir) : List String :=
  match c.stdinFailIndex with
  | some k => if k < c.inputs.length then c.inputs.take k else c.inputs
  | none => c.inputs

/-- One row of the results list (status, points awarded, reason). -/
structure RunResult where
  test_case : String
  status : String
  points : Int
  reason : String
deriving DecidableEq

/-- Outcome of the body of the per-case loop: a recorded result followed by
continue, a recorded result followed by break (the dotnet-unavailable arm),
or an uncaught exception that terminates run_tests. -/
inductive CaseStep where
  | recordedContinue (r : RunResult) (award : Int)
  | recordedBreak (r : RunResult)
  | crash (e : PyErr)
deriving DecidableEq

/-- The body of the per-case loop of run_tests (lines 176-261), after the
points have been parsed, with pv the parsed point value.

The branches, in source order: if either built command is None the case is
recorded as "Failed to start" with reason "dotnet not available for DLL"
and the loop breaks; if launching either process raises, the case is
recorded as "Failed to start" with the exception text and the loop
continues; if a stdin.write raises inside the feed loop, the handler calls
cleanup_current_processes (which sets current_client_process to None) and
breaks out of the feed loop, after which line 235 evaluates poll() on None
and an uncaught AttributeError terminates run_tests; otherwise both diffs
are taken and the case is recorded as "Passed" with pv points (a diff
report is never an empty string, so Python truthiness agrees with is-None)
or as "Failed" with the concatenated reports. -/
def run_case (cfg : Config) (c : CaseDir) (pv : Int) : CaseStep :=
  match build_command_for_path cfg.clientPath cfg.dotnetPath,
        build_command_for_path cfg.serverPath cfg.dotnetPath with
  | none, _ =>
    .recordedBreak ⟨c.name, "Failed to start", 0, "dotnet not available for DLL"⟩
  | some _, none =>
    .recordedBreak ⟨c.name, "Failed to start", 0, "dotnet not available for DLL"⟩
  | some _, some _ =>
    match c.spawnError with
    | some msg => .recordedContinue ⟨c.name, "Failed to start", 0, msg⟩ 0
    | none =>
      if c.stdinFailIndex.any (fun k => k < c.inputs.length) then
        .crash .attributeError
      else
        match get_diffS c.clientRecord c.capturedClient ("Client"),
              get_diffS c.serverRecord c.capturedServer ("Server") with
        | none, none => .recordedContinue ⟨c.name, "Passed", pv, "Outputs match"⟩ pv
        | cd, sd =>
          let reason :=
            (match cd with
             | some d => d ++ "\n"
             | none => "") ++
            (match sd with
             | some d => d ++ "\n"
             | none => "")
          .recordedContinue ⟨c.name, "Failed", 0, reason⟩ 0

/-- The per-case loop of run_tests (lines 161-261) over the discovered
cases, accumulating the results list, awarded_points and total_points.
total_points is increased by the parsed value before the case body runs;
an exception other than ValueError from int() escapes here. -/
def run_tests_loop (cfg : Config) :
    List CaseDir → List RunResult → Int → Int →
      Except PyErr (List RunResult × Int × Int)
  | [], res, aw, tot => .ok (res, aw, tot)
  | c :: rest, res, aw, tot =>
    match parsePointsField c.pointsField with
    | .error e => .error e
    | .ok pv =>
      match run_case cfg c pv with
      | .crash e => .error e
      | .recordedBreak r => .ok (res ++ [r], aw, tot + pv)
      | .recordedContinue r award =>
        run_tests_loop cfg rest (res ++ [r]) (aw + award) (tot + pv)

/-- The observable outcome of run_tests: the early return when an artifact
path is missing (line 131), the early return when no valid case was
discovered (line 151), or the final results with awarded and total
points. -/
inductive RunOutput where
  | abortedArtifacts
  | abortedNoCases
  | report (results : List RunResult) (awarded : Int) (total : Int)
deriving DecidableEq

/-- run_tests of src/AutoGrading.py: artifact existence check, discovery,
then the scoring loop. -/
def run_tests (cfg : Config) : Except PyErr RunOutput :=
  if !cfg.clientPathExists || !cfg.serverPathExists then .ok .abortedArtifacts
  else
    match discover cfg.entries with
    | [] => .ok .abortedNoCases
    | c :: rest =>
      match run_tests_loop cfg (c :: rest) [] 0 0 with
      | .error e => .error e
      | .ok (res, aw, tot) => .ok (.report res aw tot)

/-- The point value of a case as run_tests would parse it, with 0 for a
value whose parse raises. -/
def pvOf (c : CaseDir) : Int :=
  match parsePointsField c.pointsField with
  | .ok n => n
  | .error _ => 0

/-- Sum of the parsed point values of a list of cases. -/
def sumPv (cases : List CaseDir) : Int := (cases.map pvOf).sum

/-- Total points available across a suite run: the sum over all discovered
cases of their parsed point values. -/
def totalAvailable (cfg : Config) : Int := sumPv (discover cfg.entries)

/-- Results carried by a run outcome (none for the early returns). -/
def outputResults : RunOutput → List RunResult
  | .report res _ _ => res
  | _ => []

/-- Awarded points carried by a run outcome (0 for the early returns). -/
def outputAwarded : RunOutput → Int
  | .report _ aw _ => aw
  | _ => 0

/-- Awarded points of a completed run, none when run_tests raises. -/
def awardedOfRun (cfg : Config) : Option Int :=
  (run_tests cfg).toOption.map outputAwarded

/-! ## Statement helpers and concrete data for the claims -/

/-- No two consecutive characters of the line are both whitespace. -/
def noDoubleWs : List Char → Bool
  | c :: d :: rest => (!(isPySpace c && isPySpace d)) && noDoubleWs (d :: rest)
  | _ => true

/-- A discovered case whose run passes: matching transcripts, 10 points. -/
def caseOk : CaseDir :=
  { name := "t1", isDir := true, hasMeta := true, hasClientRecord := true,
    hasServerRecord := true, inputs := [], pointsField := some (.str "10"),
    clientRecord := "hi\n", serverRecord := "", spawnError := none,
    stdinFailIndex := none, capturedClient := "hi\n", capturedServer := "" }

/-- A configuration whose single case passes. -/
def cfgOk : Config :=
  { entries := [caseOk], clientPathExists := true, serverPathExists := true,
    clientPath := "client.exe", serverPath := "server.exe", dotnetPath := none }

/-- One case with points "-5" whose client transcript mismatches. -/
def caseNegPoints : CaseDir :=
  { caseOk with pointsField := some (.str "-5"), capturedClient := "" }

def cfgNegPoints : Config := { cfgOk with entries := [caseNegPoints] }

/-- Two discovered cases, a .dll client artifact and no dotnet launcher. -/
def caseOk2 : CaseDir := { caseOk with name := "t2" }

def cfgDllNoDotnet : Config :=
  { cfgOk with entries := [caseOk, caseOk2], clientPath := "Client.DLL" }

/-- A discovered case whose process launch raises. -/
def caseSpawnFail : CaseDir := { caseOk with spawnError := some "boom" }

/-- The case whose second stdin write raises (three scripted inputs). -/
def caseStdinFail : CaseDir :=
  { caseOk with inputs := ["a", "b", "c"], stdinFailIndex := some 1 }

/-- A configuration with the failing-stdin case. -/
def cfgStdinFail : Config := { cfgOk with entries := [caseStdinFail] }

/-- A configuration whose single case has a null points field. -/
def cfgNullPoints : Config :=
  { cfgOk with entries := [{ caseOk with pointsField := some .null }] }

/-- A configuration whose server artifact path does not exist. -/
def cfgNoServer : Config := { cfgOk with serverPathExists := false }

/-- The raw input of the idempotence counterexample: the prompt with a
doubled space, which whitespace collapsing turns into the prompt itself. -/
def promptDoubled : List Char :=
  "Enter  ProductId to query (Press Enter to exit):".data

/-! ## Lemmas about words, whitespace and the normalizer -/

theorem splitWsAux_words :
    ∀ (s cur : List Char), (∀ c ∈ cur, isPySpace c = false) →
      ∀ w ∈ splitWsAux s cur, w ≠ [] ∧ ∀ c ∈ w, isPySpace c = false := by
  intro s
  induction s with
  | nil =>
    intro cur hcur w hw
    by_cases hc : cur = []
    · simp [splitWsAux, hc] at hw
    · simp only [splitWsAux, if_neg hc, List.mem_singleton] at hw
      subst hw
      refine ⟨by simpa using hc, ?_⟩
      intro c hcm
      exact hcur c (List.mem_reverse.mp hcm)
  | cons a s ih =>
    intro cur hcur w hw
    simp only [splitWsAux] at hw
    by_cases ha : isPySpace a = true
    · rw [if_pos ha] at hw
      by_cases hc : cur = []
      · rw [if_pos hc] at hw
        exact ih [] (by simp) w hw
      · rw [if_neg hc] at hw
        rcases List.mem_cons.mp hw with h | h
        · subst h
          refine ⟨by simpa using hc, ?_⟩
          intro c hcm
          exact hcur c (List.mem_reverse.mp hcm)
        · exact ih [] (by simp) w h
    · rw [if_neg ha] at hw
      refine ih (a :: cur) ?_ w hw
      intro c hcm
      rcases List.mem_cons.mp hcm with h | h
      · subst h
        simpa using ha
      · exact hcur c h

theorem splitWs_words (l : List Char) :
    ∀ w ∈ splitWs l, w ≠ [] ∧ ∀ c ∈ w, isPySpace c = false :=
  splitWsAux_words l [] (by simp)

theorem splitWsAux_append {w : List Char} (hw : ∀ c ∈ w, isPySpace c = false) :
    ∀ (s cur : List Char), splitWsAux (w ++ s) cur = splitWsAux s (w.reverse ++ cur) := by
  induction w with
  | nil => intro s cur; simp
  | cons a w2 ih =>
    intro s cur
    have ha : isPySpace a = false := hw a (by simp)
    rw [List.cons_append, splitWsAux, if_neg (by simp [ha])]
    rw [ih (fun c hc => hw c (by simp [hc])) s (a :: cur)]
    simp [List.append_assoc]

theorem splitWs_joinWithSpace :
    ∀ (words : List (List Char)),
      (∀ w ∈ words, w ≠ [] ∧ ∀ c ∈ w, isPySpace c = false) →
      splitWs (joinWithSpace words) = words := by
  intro words
  induction words with
  | nil => intro _; rfl
  | cons w ws ih =>
    intro h
    obtain ⟨hw1, hw2⟩ := h w (by simp)
    cases ws with
    | nil =>
      show splitWsAux (joinWithSpace [w]) [] = [w]
      have h2 := splitWsAux_append hw2 [] []
      rw [List.append_nil] at h2
      rw [joinWithSpace, h2]
      simp [splitWsAux, hw1]
    | cons w2 ws2 =>
      have hJ := ih (fun x hx => h x (by simp [hx]))
      show splitWsAux (joinWithSpace (w :: w2 :: ws2)) [] = w :: w2 :: ws2
      rw [joinWithSpace, splitWsAux_append hw2 (' ' :: joinWithSpace (w2 :: ws2)) []]
      rw [List.append_nil, splitWsAux]
      rw [if_pos (show isPySpace ' ' = true by decide)]
      rw [if_neg (show ¬(w.reverse = []) from fun hh => hw1 (by simpa using hh))]
      rw [List.reverse_reverse]
      exact congrArg (fun t => w :: t) hJ

theorem collapseWs_idem (l : List Char) : collapseWs (collapseWs l) = collapseWs l := by
  show collapseWs (joinWithSpace (splitWs l)) = collapseWs l
  unfold collapseWs
  rw [splitWs_joinWithSpace (splitWs l) (splitWs_words l)]

theorem splitWs_single {w : List Char} (hne : w ≠ [])
    (hws : ∀ c ∈ w, isPySpace c = false) : splitWs w = [w] := by
  have h2 := splitWsAux_append hws [] []
  rw [List.append_nil] at h2
  show splitWsAux w [] = [w]
  rw [h2]
  simp [splitWsAux, hne]

theorem collapseWs_fixed {w : List Char} (hne : w ≠ [])
    (hws : ∀ c ∈ w, isPySpace c = false) : collapseWs w = w := by
  unfold collapseWs
  rw [splitWs_single hne hws]
  rfl

theorem joinWithSpace_ne_nil {w : List Char} (ws : List (List Char)) (hw : w ≠ []) :
    joinWithSpace (w :: ws) ≠ [] := by
  cases ws with
  | nil => simpa [joinWithSpace]
  | cons w2 ws2 => simp [joinWithSpace]

theorem joinWithSpace_head :
    ∀ (words : List (List Char)),
      (∀ w ∈ words, w ≠ [] ∧ ∀ c ∈ w, isPySpace c = false) →
      ∀ c, (joinWithSpace words).head? = some c → isPySpace c = false := by
  intro words h c hc
  cases words with
  | nil => simp [joinWithSpace] at hc
  | cons w ws =>
    obtain ⟨hw1, hw2⟩ := h w (by simp)
    cases w with
    | nil => exact absurd rfl hw1
    | cons a w2 =>
      have ha : a = c := by
        cases ws with
        | nil => simpa [joinWithSpace] using hc
        | cons x xs => simpa [joinWithSpace] using hc
      subst ha
      exact hw2 a (by simp)

theorem mem_of_getLast_eq {α : Type} {l : List α} {a : α} (h : l.getLast? = some a) :
    a ∈ l := by
  induction l with
  | nil => simp at h
  | cons x t ih =>
    cases t with
    | nil =>
      simp [List.getLast?] at h
      simp [h]
    | cons y r =>
      rw [List.getLast?_cons_cons] at h
      exact List.mem_cons_of_mem x (ih h)

theorem getLast_cons_ne_nil {α : Type} {t : List α} (a : α) (ht : t ≠ []) :
    (a :: t).getLast? = t.getLast? := by
  cases t with
  | nil => exact absurd rfl ht
  | cons b r => exact List.getLast?_cons_cons

theorem getLast_append_ne_nil {α : Type} {l t : List α} (ht : t ≠ []) :
    (l ++ t).getLast? = t.getLast? := by
  induction l with
  | nil => rfl
  | cons a l2 ih =>
    rw [List.cons_append, getLast_cons_ne_nil a (by simp [ht]), ih]

theorem joinWithSpace_getLast :
    ∀ (words : List (List Char)),
      (∀ w ∈ words, w ≠ [] ∧ ∀ c ∈ w, isPySpace c = false) →
      ∀ c, (joinWithSpace words).getLast? = some c → isPySpace c = false := by
  intro words
  induction words with
  | nil => intro _ c hc; simp [joinWithSpace] at hc
  | cons w ws ih =>
    intro h c hc
    obtain ⟨hw1, hw2⟩ := h w (by simp)
    cases ws with
    | nil =>
      rw [joinWithSpace] at hc
      exact hw2 c (mem_of_getLast_eq hc)
    | cons w2 ws2 =>
      rw [joinWithSpace] at hc
      have hJ : joinWithSpace (w2 :: ws2) ≠ [] :=
        joinWithSpace_ne_nil ws2 (h w2 (by simp)).1
      rw [getLast_append_ne_nil (by simp), getLast_cons_ne_nil ' ' hJ] at hc
      exact ih (fun x hx => h x (by simp [hx])) c hc

theorem joinWithSpace_ws_space :
    ∀ (words : List (List Char)),
      (∀ w ∈ words, w ≠ [] ∧ ∀ c ∈ w, isPySpace c = false) →
      ∀ c ∈ joinWithSpace words, isPySpace c = true → c = ' ' := by
  intro words
  induction words with
  | nil => intro _ c hc; simp [joinWithSpace] at hc
  | cons w ws ih =>
    intro h c hc hs
    obtain ⟨hw1, hw2⟩ := h w (by simp)
    cases ws with
    | nil =>
      rw [joinWithSpace] at hc
      exact absurd hs (by simp [hw2 c hc])
    | cons w2 ws2 =>
      rw [joinWithSpace] at hc
      rcases List.mem_append.mp hc with hm | hm
      · exact absurd hs (by simp [hw2 c hm])
      · rcases List.mem_cons.mp hm with hm | hm
        · exact hm
        · exact ih (fun x hx => h x (by simp [hx])) c hm hs

theorem noDoubleWs_cons {c : Char} {t : List Char} (hc : isPySpace c = false)
    (ht : noDoubleWs t = true) : noDoubleWs (c :: t) = true := by
  cases t with
  | nil => rfl
  | cons d r => simp [noDoubleWs, hc, ht]

theorem noDoubleWs_append_word {t : List Char} (ht : noDoubleWs t = true) :
    ∀ {w : List Char}, (∀ c ∈ w, isPySpace c = false) → noDoubleWs (w ++ t) = true := by
  intro w
  induction w with
  | nil => intro _; simpa
  | cons a w2 ih =>
    intro hw
    rw [List.cons_append]
    exact noDoubleWs_cons (hw a (by simp)) (ih (fun c hc => hw c (by simp [hc])))

theorem joinWithSpace_noDoubleWs :
    ∀ (words : List (List Char)),
      (∀ w ∈ words, w ≠ [] ∧ ∀ c ∈ w, isPySpace c = false) →
      noDoubleWs (joinWithSpace words) = true := by
  intro words
  induction words with
  | nil => intro _; rfl
  | cons w ws ih =>
    intro h
    obtain ⟨hw1, hw2⟩ := h w (by simp)
    cases ws with
    | nil =>
      rw [joinWithSpace]
      have := noDoubleWs_append_word (t := []) rfl hw2
      simpa using this
    | cons w2 ws2 =>
      rw [joinWithSpace]
      refine noDoubleWs_append_word ?_ hw2
      have hJ := ih (fun x hx => h x (by simp [hx]))
      cases hJc : joinWithSpace (w2 :: ws2) with
      | nil => rfl
      | cons d r =>
        have hd : isPySpace d = false := by
          refine joinWithSpace_head (w2 :: ws2) (fun x hx => h x (by simp [hx])) d ?_
          rw [hJc]
          rfl
        rw [hJc] at hJ
        simp [noDoubleWs, hd, hJ]

theorem mem_popTrailingEmpty {l : List (List Char)} {x : List Char}
    (h : x ∈ popTrailingEmpty l) : x ∈ l := by
  unfold popTrailingEmpty at h
  rw [List.mem_reverse] at h
  exact List.mem_reverse.mp ((List.dropWhile_sublist _).mem h)

theorem mem_read_and_normalize {raw l : List Char} (h : l ∈ read_and_normalize raw) :
    ∃ l0, l = collapseWs l0 ∧ l ≠ [] := by
  unfold read_and_normalize at h
  have h1 := mem_popTrailingEmpty h
  rw [List.mem_filter] at h1
  obtain ⟨hm, hne⟩ := h1
  rw [List.mem_map] at hm
  obtain ⟨l0, _, rfl⟩ := hm
  exact ⟨l0, rfl, by simpa using hne⟩

theorem normalize_line_props {raw l : List Char} (h : l ∈ read_and_normalize raw) :
    l ≠ [] ∧ (∀ c ∈ l, isPySpace c = true → c = ' ') ∧
      (∀ c, l.head? = some c → isPySpace c = false) ∧
      (∀ c, l.getLast? = some c → isPySpace c = false) ∧
      noDoubleWs l = true := by
  obtain ⟨l0, rfl, hne⟩ := mem_read_and_normalize h
  have hw := splitWs_words l0
  exact ⟨hne, joinWithSpace_ws_space _ hw, joinWithSpace_head _ hw,
    joinWithSpace_getLast _ hw, joinWithSpace_noDoubleWs _ hw⟩

theorem collapseWs_fixed_of_mem {raw l : List Char} (h : l ∈ read_and_normalize raw) :
    collapseWs l = l := by
  obtain ⟨l0, rfl, _⟩ := mem_read_and_normalize h
  exact collapseWs_idem l0

/-! ## Lemmas about replace, split and join used for idempotence -/

theorem listReplaceGo_id {pat rep : List Char} :
    ∀ (fuel : Nat) (s : List Char), occurs pat s = false →
      listReplaceGo pat rep fuel s = s := by
  intro fuel
  induction fuel with
  | zero => intro s _; rfl
  | succ f ih =>
    intro s h
    cases s with
    | nil =>
      by_cases hp : pat = []
      · simp [listReplaceGo, hp]
      · have hsw : startsWith [] pat = false := by
          simpa [occurs] using h
        simp [listReplaceGo, hp, hsw]
    | cons c cs =>
      by_cases hp : pat = []
      · simp [listReplaceGo, hp]
      · have h2 : startsWith (c :: cs) pat = false ∧ occurs pat cs = false := by
          simpa [occurs, Bool.or_eq_false_iff] using h
        simp [listReplaceGo, hp, h2.1, ih cs h2.2]

theorem listReplace_id {s pat rep : List Char} (h : occurs pat s = false) :
    listReplace s pat rep = s := listReplaceGo_id _ s h

theorem occurs_eq_false {c : Char} {ps s : List Char} (h : c ∉ s) :
    occurs (c :: ps) s = false := by
  induction s with
  | nil => rfl
  | cons d t ih =>
    have hd : (d == c) = false := by
      have : d ≠ c := fun he => h (by simp [he])
      simpa using this
    have ht : c ∉ t := fun m => h (by simp [m])
    simp [occurs, startsWith, hd, ih ht]

theorem splitOnChar_no_sep {sep : Char} :
    ∀ {w : List Char}, sep ∉ w → splitOnChar sep w = [w] := by
  intro w
  induction w with
  | nil => intro _; rfl
  | cons c cs ih =>
    intro h
    have hc : (c == sep) = false := by
      have : c ≠ sep := fun he => h (by simp [he])
      simpa using this
    have ht : sep ∉ cs := fun m => h (by simp [m])
    rw [splitOnChar, if_neg (by simp [hc]), ih ht]

theorem splitOnChar_append {sep : Char} {t : List Char} :
    ∀ {w : List Char}, sep ∉ w →
      splitOnChar sep (w ++ sep :: t) = w :: splitOnChar sep t := by
  intro w
  induction w with
  | nil =>
    intro _
    rw [List.nil_append, splitOnChar, if_pos (by simp)]
  | cons c cs ih =>
    intro h
    have hc : (c == sep) = false := by
      have : c ≠ sep := fun he => h (by simp [he])
      simpa using this
    have ht : sep ∉ cs := fun m => h (by simp [m])
    rw [List.cons_append, splitOnChar, if_neg (by simp [hc]), ih ht]

theorem splitOnChar_join :
    ∀ {L : List (List Char)}, (∀ l ∈ L, ('\n') ∉ l) → L ≠ [] →
      splitOnChar '\n' (joinLinesNL L) = L := by
  intro L
  induction L with
  | nil => intro _ h; exact absurd rfl h
  | cons l ls ih =>
    intro hL _
    cases ls with
    | nil => exact splitOnChar_no_sep (hL l (by simp))
    | cons l2 ls2 =>
      rw [joinLinesNL, splitOnChar_append (hL l (by simp))]
      rw [ih (fun x hx => hL x (by simp [hx])) (by simp)]

theorem map_id_of_fixed {α : Type} {f : α → α} :
    ∀ {l : List α}, (∀ a ∈ l, f a = a) → l.map f = l := by
  intro l
  induction l with
  | nil => intro _; rfl
  | cons a t ih =>
    intro h
    rw [List.map_cons, h a (by simp), ih (fun x hx => h x (by simp [hx]))]

theorem filter_id_of_all {α : Type} {p : α → Bool} :
    ∀ {l : List α}, (∀ a ∈ l, p a = true) → l.filter p = l := by
  intro l
  induction l with
  | nil => intro _; rfl
  | cons a t ih =>
    intro h
    rw [List.filter_cons, if_pos (h a (by simp)), ih (fun x hx => h x (by simp [hx]))]

theorem dropWhile_id_of_none {α : Type} {p : α → Bool} {l : List α}
    (h : ∀ a ∈ l, p a = false) : l.dropWhile p = l := by
  cases l with
  | nil => rfl
  | cons a t => rw [List.dropWhile_cons, if_neg (by simp [h a (by simp)])]

theorem popTrailingEmpty_id {L : List (List Char)} (h : ∀ l ∈ L, l ≠ []) :
    popTrailingEmpty L = L := by
  unfold popTrailingEmpty
  rw [dropWhile_id_of_none, List.reverse_reverse]
  intro a ha
  simpa using h a (List.mem_reverse.mp ha)

theorem mem_joinLinesNL :
    ∀ {L : List (List Char)} {c : Char}, c ∈ joinLinesNL L →
      (∃ l ∈ L, c ∈ l) ∨ c = '\n' := by
  intro L
  induction L with
  | nil => intro c h; simp [joinLinesNL] at h
  | cons l ls ih =>
    intro c h
    cases ls with
    | nil => exact Or.inl ⟨l, by simp, by simpa [joinLinesNL] using h⟩
    | cons l2 ls2 =>
      rw [joinLinesNL] at h
      rcases List.mem_append.mp h with h | h
      · exact Or.inl ⟨l, by simp, h⟩
      · rcases List.mem_cons.mp h with h | h
        · exact Or.inr h
        · rcases ih h with ⟨x, hx, hc⟩ | h
          · exact Or.inl ⟨x, by simp [hx], hc⟩
          · exact Or.inr h

theorem no_cr_lf_of_mem {raw l : List Char} (h : l ∈ read_and_normalize raw) :
    ('\r') ∉ l ∧ ('\n') ∉ l := by
  have hp := (normalize_line_props h).2.1
  constructor
  · intro hm
    have := hp _ hm (by decide)
    exact absurd this (by decide)
  · intro hm
    have := hp _ hm (by decide)
    exact absurd this (by decide)

theorem read_and_normalize_word {w : List Char} (hne : w ≠ [])
    (hws : ∀ c ∈ w, isPySpace c = false) (hp : occurs prompt w = false) :
    read_and_normalize w = [w] := by
  have hr : ('\r') ∉ w := by
    intro m
    have := hws _ m
    exact absurd this (by decide)
  have hn : ('\n') ∉ w := by
    intro m
    have := hws _ m
    exact absurd this (by decide)
  unfold read_and_normalize
  rw [listReplace_id (occurs_eq_false hr), listReplace_id (occurs_eq_false hr),
    listReplace_id hp, splitOnChar_no_sep hn, List.map_cons, List.map_nil,
    collapseWs_fixed hne hws]
  rw [List.filter_cons, if_pos (by simpa using hne), List.filter_nil]
  exact popTrailingEmpty_id (by simpa using hne)

/-! ## Lemmas about the differ -/

theorem get_diff_none_iff (f1 f2 label : List Char) :
    get_diff f1 f2 label = none ↔ read_and_normalize f1 = read_and_normalize f2 := by
  unfold get_diff
  by_cases h : read_and_normalize f1 = read_and_normalize f2 <;> simp [h]

theorem get_diff_eq_of_ne {f1 f2 : List Char} (label : List Char)
    (he : ¬ read_and_normalize f1 = read_and_normalize f2) :
    get_diff f1 f2 label =
      some (label ++ " mismatch:\n".data ++
        (List.flatten (unified_diff (read_and_normalize f1) (read_and_normalize f2))).take 2000) := by
  unfold get_diff
  simp [he]

theorem get_diff_length_bound {f1 f2 label r : List Char}
    (h : get_diff f1 f2 label = some r) : r.length ≤ label.length + 2011 := by
  by_cases he : read_and_normalize f1 = read_and_normalize f2
  · rw [(get_diff_none_iff f1 f2 label).mpr he] at h
    exact Option.noConfusion h
  · rw [get_diff_eq_of_ne label he] at h
    obtain rfl := (Option.some.injEq _ _).mp h.symm
    have h11 : (" mismatch:\n".data).length = 11 := rfl
    simp only [List.length_append, List.length_take, h11]
    omega

theorem get_diffS_none_iff (f1 f2 label : String) :
    get_diffS f1 f2 label = none ↔ read_and_normalize f1.data = read_and_normalize f2.data := by
  unfold get_diffS
  rw [Option.map_eq_none']
  exact get_diff_none_iff f1.data f2.data label.data

theorem get_diffS_length_bound {f1 f2 label : String} {r : String}
    (h : get_diffS f1 f2 label = some r) : r.length ≤ label.length + 2011 := by
  unfold get_diffS at h
  obtain ⟨l, hl, rfl⟩ := Option.map_eq_some'.mp h
  have : (String.mk l).length = l.length := rfl
  rw [this]
  have : label.length = label.data.length := rfl
  rw [this]
  exact get_diff_length_bound hl

/-- C2 (confirmed): get_diff returns none exactly when the two normalized
line sequences are equal; hence it is reflexive, and none-detection is
symmetric. -/
theorem claim_C2 (a b t label : List Char) :
    (get_diff a b label = none ↔ read_and_normalize a = read_and_normalize b) ∧
    get_diff t t label = none ∧
    (get_diff a b label = none ↔ get_diff b a label = none) := by
  refine ⟨get_diff_none_iff a b label, ?_, ?_⟩
  · exact (get_diff_none_iff t t label).mpr rfl
  · rw [get_diff_none_iff, get_diff_none_iff]
    exact eq_comm

theorem bigLine_normalize :
    read_and_normalize (List.replicate 2000 'X') = [List.replicate 2000 'X'] := by
  have hbig : List.replicate 2000 'X' ≠ [] := by
    intro hh
    have h2 : (List.replicate 2000 'X').length = ([] : List Char).length :=
      congrArg List.length hh
    rw [List.length_replicate, List.length_nil] at h2
    omega
  refine read_and_normalize_word hbig ?_ ?_
  · intro c hc
    rw [List.eq_of_mem_replicate hc]
    decide
  · have hE : ('E') ∉ List.replicate 2000 'X' := by
      intro m
      exact absurd (List.eq_of_mem_replicate m) (by decide)
    have hpr : prompt = 'E' :: ("nter ProductId to query (Press Enter to exit):".data) := rfl
    rw [hpr]
    exact occurs_eq_false hE

theorem grouped_nil_single (w : List Char) :
    get_grouped_opcodes [] [w] = [[⟨.insert, 0, 0, 0, 1⟩]] := rfl

theorem unified_diff_nil_single (w : List Char) :
    unified_diff [] [w] =
      ["--- expected\n".data, "+++ actual\n".data, "@@ -0,0 +1 @@\n".data, '+' :: w] := by
  unfold unified_diff
  rw [grouped_nil_single]
  rfl

/-- C3 (counterexample): on an empty expected transcript and a single
2000-character actual line, the report returned by get_diff with label
"Client" has 2017 characters, more than the claimed 2000 bound. -/
theorem claim_C3_counterexample :
    (get_diff [] (List.replicate 2000 'X') ("Client".data)).map List.length = some 2017 ∧
    2000 < 2017 := by
  refine ⟨?_, by omega⟩
  have h0 : read_and_normalize ([] : List Char) = [] := rfl
  have hn2 := bigLine_normalize
  have hne : ¬ read_and_normalize ([] : List Char) = read_and_normalize (List.replicate 2000 'X') := by
    rw [h0, hn2]
    exact fun hh => List.noConfusion hh
  rw [get_diff_eq_of_ne ("Client".data) hne]
  rw [Option.map_some']
  refine congrArg some ?_
  rw [h0, hn2, unified_diff_nil_single]
  have e1 : ("--- expected\n".data).length = 13 := rfl
  have e2 : ("+++ actual\n".data).length = 11 := rfl
  have e3 : ("@@ -0,0 +1 @@\n".data).length = 14 := rfl
  have e4 : (" mismatch:\n".data).length = 11 := rfl
  have e5 : ("Client".data).length = 6 := rfl
  simp only [List.length_append, List.length_take, List.length_flatten, List.map_cons,
    List.map_nil, List.sum_cons, List.sum_nil, List.length_cons, List.length_replicate,
    e1, e2, e3, e4, e5]
  omega

/-- C7 (confirmed): when either artifact path does not exist, run_tests
returns the artifact abort before discovering or scoring anything: the
outcome carries no results and no awarded points. -/
theorem claim_C7 (cfg : Config)
    (h : cfg.clientPathExists = false ∨ cfg.serverPathExists = false) :
    run_tests cfg = .ok .abortedArtifacts ∧
    outputResults RunOutput.abortedArtifacts = [] ∧
    outputAwarded RunOutput.abortedArtifacts = 0 := by
  refine ⟨?_, rfl, rfl⟩
  unfold run_tests
  rcases h with h | h <;> simp [h]

theorem claim_C7_witness :
    (cfgNoServer.clientPathExists = false ∨ cfgNoServer.serverPathExists = false) ∧
    (run_tests cfgNoServer = .ok .abortedArtifacts ∧
      outputResults RunOutput.abortedArtifacts = [] ∧
      outputAwarded RunOutput.abortedArtifacts = 0) :=
  ⟨by decide, claim_C7 cfgNoServer (by decide)⟩

/-- C9 (counterexample): a manifest whose points value is null makes int()
raise TypeError, which the except ValueError handler does not catch, so the
exception escapes the case and aborts the whole run. -/
theorem claim_C9_counterexample :
    parsePointsField (some PyJson.null) = .error .typeError ∧
    run_tests cfgNullPoints = .error .typeError := by
  exact ⟨rfl, rfl⟩

/-- C9 (amended): for a points value that is a string or an integer, or a
missing field (defaulting to the string "0"), the parsed value is the
integer parse of the string with 0 on a failed parse, respectively the
integer itself, and parsing never raises. -/
theorem claim_C9_amended :
    (∀ s : String, parsePointsField (some (.str s)) = .ok ((pyStrToInt s.data).getD 0)) ∧
    (∀ n : Int, parsePointsField (some (.int n)) = .ok n) ∧
    parsePointsField none = .ok 0 := by
  refine ⟨?_, fun n => rfl, rfl⟩
  intro s
  unfold parsePointsField pyInt
  cases h : pyStrToInt s.data <;> simp [h]

/-- C6 (code_bug): with three scripted inputs and the second stdin write
raising, only the first input is written, and instead of proceeding to the
diffs the run dies: the except handler nulls the process handles and the
poll() that follows the feed loop raises an uncaught AttributeError, so
run_tests records nothing at all for the case. -/
theorem claim_C6_code_bug :
    run_tests cfgStdinFail = .error .attributeError ∧
    writtenInputs caseStdinFail = ["a"] := by
  exact ⟨rfl, rfl⟩

/-- C10 (confirmed): every line produced by the normalizer is nonempty,
contains no carriage return or newline, every whitespace character in it is
a plain space, its first and last characters are not whitespace, and no two
consecutive characters are both whitespace. -/
theorem claim_C10 (x l : List Char) (h : l ∈ read_and_normalize x) :
    l ≠ [] ∧
    (∀ c ∈ l, c ≠ '\n' ∧ c ≠ '\r') ∧
    (∀ c ∈ l, isPySpace c = true → c = ' ') ∧
    (∀ c, l.head? = some c → isPySpace c = false) ∧
    (∀ c, l.getLast? = some c → isPySpace c = false) ∧
    noDoubleWs l = true := by
  obtain ⟨hne, hsp, hhd, hlast, hdw⟩ := normalize_line_props h
  obtain ⟨hcr, hlf⟩ := no_cr_lf_of_mem h
  refine ⟨hne, ?_, hsp, hhd, hlast, hdw⟩
  intro c hc
  constructor
  · intro he
    exact hlf (he ▸ hc)
  · intro he
    exact hcr (he ▸ hc)

theorem claim_C10_witness :
    (['a', ' ', 'b'] ∈ read_and_normalize ("a  b".data)) ∧
    (['a', ' ', 'b'] ≠ [] ∧
      (∀ c ∈ ['a', ' ', 'b'], c ≠ '\n' ∧ c ≠ '\r') ∧
      (∀ c ∈ ['a', ' ', 'b'], isPySpace c = true → c = ' ') ∧
      (∀ c, (['a', ' ', 'b'] : List Char).head? = some c → isPySpace c = false) ∧
      (∀ c, (['a', ' ', 'b'] : List Char).getLast? = some c → isPySpace c = false) ∧
      noDoubleWs ['a', ' ', 'b'] = true) :=
  ⟨by decide, claim_C10 ("a  b".data) ['a', ' ', 'b'] (by decide)⟩

/-- C4 (counterexample): the raw input that is the prompt with a doubled
space normalizes to the prompt itself; normalizing the rejoined text then
erases the prompt and yields the empty line list, so the normalizer is not
idempotent. -/
theorem claim_C4_counterexample :
    read_and_normalize (joinLinesNL (read_and_normalize promptDoubled)) ≠
      read_and_normalize promptDoubled := by decide

/-- C4 (amended): the normalizer is idempotent on every raw input whose
normalized lines, rejoined by the canonical terminator, do not contain the
prompt literal. -/
theorem claim_C4_amended (x : List Char)
    (h : occurs prompt (joinLinesNL (read_and_normalize x)) = false) :
    read_and_normalize (joinLinesNL (read_and_normalize x)) = read_and_normalize x := by
  cases hL : read_and_normalize x with
  | nil => rfl
  | cons l0 ls =>
    have hmem : ∀ l ∈ l0 :: ls, l ∈ read_and_normalize x := by
      intro l hl
      rw [hL]
      exact hl
    have hnonil : ∀ l ∈ l0 :: ls, l ≠ [] :=
      fun l hl => (normalize_line_props (hmem l hl)).1
    have hnl : ∀ l ∈ l0 :: ls, ('\n') ∉ l :=
      fun l hl => (no_cr_lf_of_mem (hmem l hl)).2
    have hcr : ('\r') ∉ joinLinesNL (l0 :: ls) := by
      intro m
      rcases mem_joinLinesNL m with ⟨l, hl, hc⟩ | he
      · exact (no_cr_lf_of_mem (hmem l hl)).1 hc
      · exact absurd he (by decide)
    rw [hL] at h
    unfold read_and_normalize
    rw [listReplace_id (occurs_eq_false hcr), listReplace_id (occurs_eq_false hcr),
      listReplace_id h, splitOnChar_join hnl (by simp),
      map_id_of_fixed (fun l hl => collapseWs_fixed_of_mem (hmem l hl)),
      filter_id_of_all (fun l hl => by simpa using hnonil l hl),
      popTrailingEmpty_id hnonil]

theorem claim_C4_witness :
    occurs prompt (joinLinesNL (read_and_normalize ("a  b\nc\n".data))) = false ∧
    read_and_normalize (joinLinesNL (read_and_normalize ("a  b\nc\n".data))) =
      read_and_normalize ("a  b\nc\n".data) :=
  ⟨by decide, claim_C4_amended ("a  b\nc\n".data) (by decide)⟩

/-- C5 (amended): a case whose process launch raises is recorded as
"Failed to start" with 0 points and the loop continues with the next case;
a case for which the dotnet launcher cannot be resolved is recorded as
"Failed to start" with 0 points but the loop breaks, so no later case is
run. -/
theorem claim_C5_amended :
    (∀ (cfg : Config) (c : CaseDir) (rest : List CaseDir) (res : List RunResult)
        (aw tot pv : Int) (msg : String),
        (build_command_for_path cfg.clientPath cfg.dotnetPath).isSome = true →
        (build_command_for_path cfg.serverPath cfg.dotnetPath).isSome = true →
        c.spawnError = some msg →
        parsePointsField c.pointsField = .ok pv →
        run_tests_loop cfg (c :: rest) res aw tot =
          run_tests_loop cfg rest (res ++ [⟨c.name, "Failed to start", 0, msg⟩]) aw (tot + pv)) ∧
    (∀ (cfg : Config) (c : CaseDir) (rest : List CaseDir) (res : List RunResult)
        (aw tot pv : Int),
        build_command_for_path cfg.clientPath cfg.dotnetPath = none →
        parsePointsField c.pointsField = .ok pv →
        run_tests_loop cfg (c :: rest) res aw tot =
          .ok (res ++ [⟨c.name, "Failed to start", 0, "dotnet not available for DLL"⟩],
            aw, tot + pv)) := by
  constructor
  · intro cfg c rest res aw tot pv msg hc hs hsp hp
    obtain ⟨cc, hcc⟩ := Option.isSome_iff_exists.mp hc
    obtain ⟨sc, hsc⟩ := Option.isSome_iff_exists.mp hs
    have hcase : run_case cfg c pv =
        .recordedContinue ⟨c.name, "Failed to start", 0, msg⟩ 0 := by
      unfold run_case
      rw [hcc, hsc, hsp]
    simp only [run_tests_loop, hp, hcase, add_zero]
  · intro cfg c rest res aw tot pv hnone hp
    have hcase : run_case cfg c pv =
        .recordedBreak ⟨c.name, "Failed to start", 0, "dotnet not available for DLL"⟩ := by
      unfold run_case
      rw [hnone]
    simp only [run_tests_loop, hp, hcase]

/-- C5 (counterexample): with a .dll client artifact, no dotnet launcher
and two discovered cases, the first case is recorded as "Failed to start"
with 0 points and the loop breaks: only one result is recorded although two
cases were discovered, so the suite does not continue to the next case. -/
theorem claim_C5_counterexample :
    run_tests cfgDllNoDotnet =
      .ok (.report [⟨"t1", "Failed to start", 0, "dotnet not available for DLL"⟩] 0 10) ∧
    (discover cfgDllNoDotnet.entries).length = 2 := by
  exact ⟨rfl, rfl⟩

theorem claim_C5_amended_witness :
    (run_tests_loop cfgOk [caseSpawnFail] [] 0 0 =
      run_tests_loop cfgOk [] ([] ++ [⟨caseSpawnFail.name, "Failed to start", 0, "boom"⟩])
        0 (0 + 10)) ∧
    (run_tests_loop cfgDllNoDotnet [caseOk] [] 0 0 =
      .ok ([] ++ [⟨caseOk.name, "Failed to start", 0, "dotnet not available for DLL"⟩],
        0, 0 + 10)) :=
  ⟨claim_C5_amended.1 cfgOk caseSpawnFail [] [] 0 0 10 "boom" (by rfl) (by rfl) (by rfl) (by rfl),
   claim_C5_amended.2 cfgDllNoDotnet caseOk [] [] 0 0 10 (by rfl) (by rfl)⟩

/-! ## The shapes a recorded case can take -/

theorem run_case_shape (cfg : Config) (c : CaseDir) (pv : Int) :
    run_case cfg c pv = .crash .attributeError ∨
    run_case cfg c pv =
      .recordedBreak ⟨c.name, "Failed to start", 0, "dotnet not available for DLL"⟩ ∨
    (∃ msg, run_case cfg c pv = .recordedContinue ⟨c.name, "Failed to start", 0, msg⟩ 0) ∨
    (run_case cfg c pv = .recordedContinue ⟨c.name, "Passed", pv, "Outputs match"⟩ pv ∧
      get_diffS c.clientRecord c.capturedClient ("Client") = none ∧
      get_diffS c.serverRecord c.capturedServer ("Server") = none) ∨
    (∃ rs, run_case cfg c pv = .recordedContinue ⟨c.name, "Failed", 0, rs⟩ 0 ∧
      rs.length ≤ 4036) := by
  have hcl : ("Client" : String).length = 6 := rfl
  have hsl : ("Server" : String).length = 6 := rfl
  have hnl : ("\n" : String).length = 1 := rfl
  have hel : ("" : String).length = 0 := rfl
  unfold run_case
  cases hb1 : build_command_for_path cfg.clientPath cfg.dotnetPath with
  | none => exact Or.inr (Or.inl rfl)
  | some cc =>
    cases hb2 : build_command_for_path cfg.serverPath cfg.dotnetPath with
    | none => exact Or.inr (Or.inl rfl)
    | some sc =>
      cases hsp : c.spawnError with
      | some msg => exact Or.inr (Or.inr (Or.inl ⟨msg, rfl⟩))
      | none =>
        by_cases hf : c.stdinFailIndex.any (fun k => k < c.inputs.length) = true
        · rw [if_pos hf]
          exact Or.inl rfl
        · rw [if_neg hf]
          cases hd1 : get_diffS c.clientRecord c.capturedClient ("Client") with
          | none =>
            cases hd2 : get_diffS c.serverRecord c.capturedServer ("Server") with
            | none => exact Or.inr (Or.inr (Or.inr (Or.inl ⟨rfl, rfl, rfl⟩)))
            | some d2 =>
              refine Or.inr (Or.inr (Or.inr (Or.inr ⟨"" ++ (d2 ++ "\n"), rfl, ?_⟩)))
              have hb := get_diffS_length_bound hd2
              rw [String.length_append, String.length_append, hnl, hel, hsl] at *
              omega
          | some d1 =>
            cases hd2 : get_diffS c.serverRecord c.capturedServer ("Server") with
            | none =>
              refine Or.inr (Or.inr (Or.inr (Or.inr ⟨(d1 ++ "\n") ++ "", rfl, ?_⟩)))
              have hb := get_diffS_length_bound hd1
              rw [String.length_append, String.length_append, hnl, hel, hcl] at *
              omega
            | some d2 =>
              refine Or.inr (Or.inr (Or.inr (Or.inr ⟨(d1 ++ "\n") ++ (d2 ++ "\n"), rfl, ?_⟩)))
              have hb1 := get_diffS_length_bound hd1
              have hb2 := get_diffS_length_bound hd2
              rw [String.length_append, String.length_append, String.length_append,
                hnl, hcl, hsl] at *
              omega

theorem run_case_record_name {cfg : Config} {c : CaseDir} {pv : Int} {r : RunResult}
    (h : run_case cfg c pv = .recordedBreak r ∨
      ∃ award, run_case cfg c pv = .recordedContinue r award) :
    r.test_case = c.name := by
  rcases run_case_shape cfg c pv with hs | hs | ⟨msg, hs⟩ | ⟨hs, _, _⟩ | ⟨rs, hs, _⟩ <;>
    rcases h with h | ⟨award, h⟩ <;> rw [hs] at h <;> cases h <;> rfl

theorem run_case_failed_reason {cfg : Config} {c : CaseDir} {pv : Int} {r : RunResult}
    (h : run_case cfg c pv = .recordedBreak r ∨
      ∃ award, run_case cfg c pv = .recordedContinue r award)
    (hstat : r.status = "Failed") : r.reason.length ≤ 4036 := by
  rcases run_case_shape cfg c pv with hs | hs | ⟨msg, hs⟩ | ⟨hs, _, _⟩ | ⟨rs, hs, hb⟩ <;>
    rcases h with h | ⟨award, h⟩ <;> rw [hs] at h <;> cases h <;>
      first
        | exact hb
        | simp at hstat

theorem run_case_award_pass {cfg : Config} {c : CaseDir} {pv : Int} {r : RunResult}
    {award : Int} (h : run_case cfg c pv = .recordedContinue r award) (ha : award ≠ 0) :
    get_diffS c.clientRecord c.capturedClient ("Client") = none ∧
    get_diffS c.serverRecord c.capturedServer ("Server") = none ∧ award = pv := by
  rcases run_case_shape cfg c pv with hs | hs | ⟨msg, hs⟩ | ⟨hs, hdc, hds⟩ | ⟨rs, hs, _⟩ <;>
    rw [hs] at h
  · exact absurd h (by simp)
  · exact absurd h (by simp)
  · injection h with h2 h3
    exact absurd h3.symm ha
  · injection h with h2 h3
    exact ⟨hdc, hds, h3.symm⟩
  · injection h with h2 h3
    exact absurd h3.symm ha

/-! ## Lemmas about the scoring loop -/

theorem run_tests_loop_shift (cfg : Config) :
    ∀ (cases : List CaseDir) (res : List RunResult) (aw tot : Int),
      run_tests_loop cfg cases res aw tot =
        match run_tests_loop cfg cases [] 0 0 with
        | .error e => .error e
        | .ok (nr, na, nt) => .ok (res ++ nr, aw + na, tot + nt) := by
  intro cases
  induction cases with
  | nil =>
    intro res aw tot
    simp [run_tests_loop]
  | cons c rest ih =>
    intro res aw tot
    simp only [run_tests_loop]
    cases hp : parsePointsField c.pointsField with
    | error e => rfl
    | ok pv =>
      simp only
      cases hc : run_case cfg c pv with
      | crash e => rfl
      | recordedBreak r => simp
      | recordedContinue r award =>
        simp only
        rw [ih (res ++ [r]), ih ([] ++ [r])]
        cases hb : run_tests_loop cfg rest [] 0 0 with
        | error e => rfl
        | ok trip =>
          obtain ⟨nr, na, nt⟩ := trip
          simp [List.append_assoc, add_assoc]

theorem run_tests_loop_mem (cfg : Config) :
    ∀ (cases : List CaseDir) (nr : List RunResult) (na nt : Int),
      run_tests_loop cfg cases [] 0 0 = .ok (nr, na, nt) →
      ∀ r ∈ nr, ∃ c, c ∈ cases ∧ ∃ pv, parsePointsField c.pointsField = .ok pv ∧
        (run_case cfg c pv = .recordedBreak r ∨
          ∃ award, run_case cfg c pv = .recordedContinue r award) := by
  intro cases
  induction cases with
  | nil =>
    intro nr na nt h r hr
    simp only [run_tests_loop, Except.ok.injEq, Prod.mk.injEq] at h
    obtain ⟨rfl, -, -⟩ := h
    simp at hr
  | cons c rest ih =>
    intro nr na nt h r hr
    simp only [run_tests_loop] at h
    cases hp : parsePointsField c.pointsField with
    | error e =>
      rw [hp] at h
      simp at h
    | ok pv =>
      rw [hp] at h
      simp only at h
      cases hc : run_case cfg c pv with
      | crash e =>
        rw [hc] at h
        simp at h
      | recordedBreak rb =>
        rw [hc] at h
        simp only [Except.ok.injEq, Prod.mk.injEq, List.nil_append] at h
        obtain ⟨rfl, -, -⟩ := h
        rw [List.mem_singleton] at hr
        subst hr
        exact ⟨c, by simp, pv, hp, Or.inl hc⟩
      | recordedContinue rc award =>
        rw [hc] at h
        simp only at h
        rw [run_tests_loop_shift cfg rest] at h
        cases hb : run_tests_loop cfg rest [] 0 0 with
        | error e =>
          rw [hb] at h
          simp at h
        | ok trip =>
          obtain ⟨nr2, na2, nt2⟩ := trip
          rw [hb] at h
          simp only [Except.ok.injEq, Prod.mk.injEq, List.nil_append,
            List.singleton_append] at h
          obtain ⟨rfl, -, -⟩ := h
          rcases List.mem_cons.mp hr with rfl | hr2
          · exact ⟨c, by simp, pv, hp, Or.inr ⟨award, hc⟩⟩
          · obtain ⟨c2, hc2, pv2, hp2, hcase2⟩ := ih nr2 na2 nt2 hb r hr2
            exact ⟨c2, by simp [hc2], pv2, hp2, hcase2⟩

theorem pvOf_parse {c : CaseDir} (h : 0 < pvOf c) :
    parsePointsField c.pointsField = .ok (pvOf c) := by
  unfold pvOf
  cases hp : parsePointsField c.pointsField with
  | error e =>
    unfold pvOf at h
    rw [hp] at h
    simp at h
  | ok n => rfl

theorem sumPv_cons (c : CaseDir) (cs : List CaseDir) :
    sumPv (c :: cs) = pvOf c + sumPv cs := by
  simp [sumPv]

theorem sumPv_nonneg :
    ∀ {cs : List CaseDir}, (∀ c ∈ cs, 0 < pvOf c) → 0 ≤ sumPv cs := by
  intro cs
  induction cs with
  | nil => intro _; simp [sumPv]
  | cons c rest ih =>
    intro h
    rw [sumPv_cons]
    have h1 := h c (by simp)
    have h2 := ih (fun x hx => h x (by simp [hx]))
    omega

theorem run_tests_loop_bound (cfg : Config) :
    ∀ (cases : List CaseDir) (nr : List RunResult) (na nt : Int),
      (∀ c ∈ cases, 0 < pvOf c) →
      run_tests_loop cfg cases [] 0 0 = .ok (nr, na, nt) →
      na ≤ sumPv cases ∧
        (na = sumPv cases ↔ nr.length = cases.length ∧ ∀ r ∈ nr, r.status = "Passed") := by
  intro cases
  induction cases with
  | nil =>
    intro nr na nt _ h
    simp only [run_tests_loop, Except.ok.injEq, Prod.mk.injEq] at h
    obtain ⟨rfl, rfl, -⟩ := h
    simp [sumPv]
  | cons c rest ih =>
    intro nr na nt hpos h
    have hpv : 0 < pvOf c := hpos c (by simp)
    have hrestpos : ∀ x ∈ rest, 0 < pvOf x := fun x hx => hpos x (by simp [hx])
    have hsumrest : 0 ≤ sumPv rest := sumPv_nonneg hrestpos
    simp only [run_tests_loop, pvOf_parse hpv] at h
    rcases run_case_shape cfg c (pvOf c) with hs | hs | ⟨msg, hs⟩ | ⟨hs, -, -⟩ | ⟨rs, hs, -⟩
    · rw [hs] at h
      simp at h
    · rw [hs] at h
      simp only [Except.ok.injEq, Prod.mk.injEq, List.nil_append] at h
      obtain ⟨rfl, rfl, -⟩ := h
      rw [sumPv_cons]
      constructor
      · omega
      · constructor
        · intro he
          omega
        · rintro ⟨hlen, hall⟩
          simp at hall
    · rw [hs] at h
      simp only at h
      rw [run_tests_loop_shift cfg rest] at h
      cases hb : run_tests_loop cfg rest [] 0 0 with
      | error e =>
        rw [hb] at h
        simp at h
      | ok trip =>
        obtain ⟨nr2, na2, nt2⟩ := trip
        rw [hb] at h
        simp only [Except.ok.injEq, Prod.mk.injEq, List.nil_append,
          List.singleton_append, zero_add] at h
        obtain ⟨rfl, rfl, -⟩ := h
        obtain ⟨ihb, -⟩ := ih nr2 na2 nt2 hrestpos hb
        rw [sumPv_cons]
        constructor
        · omega
        · constructor
          · intro he
            omega
          · rintro ⟨hlen, hall⟩
            simp at hall
    · rw [hs] at h
      simp only at h
      rw [run_tests_loop_shift cfg rest] at h
      cases hb : run_tests_loop cfg rest [] 0 0 with
      | error e =>
        rw [hb] at h
        simp at h
      | ok trip =>
        obtain ⟨nr2, na2, nt2⟩ := trip
        rw [hb] at h
        simp only [Except.ok.injEq, Prod.mk.injEq, List.nil_append,
          List.singleton_append, zero_add] at h
        obtain ⟨rfl, rfl, -⟩ := h
        obtain ⟨ihb, ihe⟩ := ih nr2 na2 nt2 hrestpos hb
        rw [sumPv_cons]
        constructor
        · omega
        · constructor
          · intro he
            have hna2 : na2 = sumPv rest := by omega
            obtain ⟨hlen, hall⟩ := ihe.mp hna2
            refine ⟨by simp [hlen], ?_⟩
            intro r hr
            rcases List.mem_cons.mp hr with rfl | hr2
            · rfl
            · exact hall r hr2
          · rintro ⟨hlen, hall⟩
            have hall2 : ∀ r ∈ nr2, r.status = "Passed" := by
              intro r hr2
              exact hall r (by simp [hr2])
            have hlen2 : nr2.length = rest.length := by
              simpa using hlen
            have := ihe.mpr ⟨hlen2, hall2⟩
            omega
    · rw [hs] at h
      simp only at h
      rw [run_tests_loop_shift cfg rest] at h
      cases hb : run_tests_loop cfg rest [] 0 0 with
      | error e =>
        rw [hb] at h
        simp at h
      | ok trip =>
        obtain ⟨nr2, na2, nt2⟩ := trip
        rw [hb] at h
        simp only [Except.ok.injEq, Prod.mk.injEq, List.nil_append,
          List.singleton_append, zero_add] at h
        obtain ⟨rfl, rfl, -⟩ := h
        obtain ⟨ihb, -⟩ := ih nr2 na2 nt2 hrestpos hb
        rw [sumPv_cons]
        constructor
        · omega
        · constructor
          · intro he
            omega
          · rintro ⟨hlen, hall⟩
            simp at hall

theorem run_tests_report {cfg : Config} {res : List RunResult} {aw tot : Int}
    (hrun : run_tests cfg = .ok (.report res aw tot)) :
    run_tests_loop cfg (discover cfg.entries) [] 0 0 = .ok (res, aw, tot) := by
  unfold run_tests at hrun
  by_cases h1 : (!cfg.clientPathExists || !cfg.serverPathExists) = true
  · rw [if_pos h1] at hrun
    simp at hrun
  · rw [if_neg h1] at hrun
    cases hd : discover cfg.entries with
    | nil =>
      rw [hd] at hrun
      simp at hrun
    | cons c0 cs =>
      rw [hd] at hrun
      simp only at hrun
      cases hloop : run_tests_loop cfg (c0 :: cs) [] 0 0 with
      | error e =>
        rw [hloop] at hrun
        simp at hrun
      | ok trip =>
        obtain ⟨nr, na, nt⟩ := trip
        rw [hloop] at hrun
        simp only [Except.ok.injEq, RunOutput.report.injEq] at hrun
        obtain ⟨rfl, rfl, rfl⟩ := hrun
        rfl

/-! ## Discovery and the remaining claims -/

theorem discover_mem (entries : List CaseDir) (e : CaseDir) :
    e ∈ discover entries ↔
      e ∈ entries ∧ (e.isDir && e.hasMeta && e.hasClientRecord && e.hasServerRecord) = true := by
  induction entries with
  | nil => simp [discover]
  | cons a rest ih =>
    by_cases ha : (a.isDir && a.hasMeta && a.hasClientRecord && a.hasServerRecord) = true
    · rw [discover, if_pos ha]
      constructor
      · intro hm
        rcases List.mem_cons.mp hm with rfl | hm
        · exact ⟨by simp, ha⟩
        · obtain ⟨h1, h2⟩ := ih.mp hm
          exact ⟨by simp [h1], h2⟩
      · rintro ⟨hm, hflags⟩
        rcases List.mem_cons.mp hm with rfl | hm
        · exact List.mem_cons_self _ _
        · exact List.mem_cons_of_mem a (ih.mpr ⟨hm, hflags⟩)
    · rw [discover, if_neg ha]
      constructor
      · intro hm
        obtain ⟨h1, h2⟩ := ih.mp hm
        exact ⟨by simp [h1], h2⟩
      · rintro ⟨hm, hflags⟩
        rcases List.mem_cons.mp hm with rfl | hm
        · exact absurd hflags ha
        · exact ih.mpr ⟨hm, hflags⟩

/-- C8 (confirmed): among the subdirectories of the test cases folder,
discovery keeps exactly those having the manifest and both golden
transcript files; and every recorded result belongs to a discovered case,
so a skipped directory is never scored. -/
theorem claim_C8 (entries : List CaseDir) (e : CaseDir)
    (he : e ∈ entries) (hdir : e.isDir = true) :
    (e ∈ discover entries ↔
      (e.hasMeta = true ∧ e.hasClientRecord = true ∧ e.hasServerRecord = true)) ∧
    (∀ (cfg : Config) (res : List RunResult) (aw tot : Int),
      cfg.entries = entries →
      run_tests cfg = .ok (.report res aw tot) →
      ∀ r ∈ res, ∃ c, c ∈ discover entries ∧ r.test_case = c.name) := by
  constructor
  · rw [discover_mem entries e]
    constructor
    · rintro ⟨-, hf⟩
      rw [hdir] at hf
      simp only [Bool.true_and, Bool.and_eq_true] at hf
      exact ⟨hf.1.1, hf.1.2, hf.2⟩
    · rintro ⟨h1, h2, h3⟩
      refine ⟨he, ?_⟩
      rw [hdir, h1, h2, h3]
      rfl
  · intro cfg res aw tot hent hrun r hr
    have hloop := run_tests_report hrun
    rw [hent] at hloop
    obtain ⟨c, hc, pv, -, hcase⟩ :=
      run_tests_loop_mem cfg (discover entries) res aw tot hloop r hr
    exact ⟨c, hc, run_case_record_name hcase⟩

theorem claim_C8_witness :
    (caseOk ∈ [caseOk] ∧ caseOk.isDir = true) ∧
    ((caseOk ∈ discover [caseOk] ↔
      (caseOk.hasMeta = true ∧ caseOk.hasClientRecord = true ∧
        caseOk.hasServerRecord = true)) ∧
     (∀ (cfg : Config) (res : List RunResult) (aw tot : Int),
        cfg.entries = [caseOk] →
        run_tests cfg = .ok (.report res aw tot) →
        ∀ r ∈ res, ∃ c, c ∈ discover [caseOk] ∧ r.test_case = c.name)) :=
  ⟨⟨by simp, rfl⟩, claim_C8 [caseOk] caseOk (by simp) rfl⟩

/-- C1 (counterexample): one discovered case with points "-5" whose client
transcript mismatches completes the run with 0 points awarded while the
total available is -5, so the awarded total exceeds the available total
and the claimed inequality fails. -/
theorem claim_C1_counterexample :
    awardedOfRun cfgNegPoints = some 0 ∧ totalAvailable cfgNegPoints = -5 ∧
    ¬((0 : Int) ≤ -5) := by
  refine ⟨rfl, rfl, by omega⟩

/-- C1 (amended): when every discovered case has a positive parsed point
value and the run completes with a report, the awarded total is at most the
total available, with equality exactly when every discovered case produced
a Passed result; and a case whose recorded step awards nonzero points
awards exactly its parsed value and has both diffs equal to none. -/
theorem claim_C1_amended (cfg : Config) (res : List RunResult) (aw tot : Int)
    (hrun : run_tests cfg = .ok (.report res aw tot))
    (hpos : ∀ c ∈ discover cfg.entries, 0 < pvOf c) :
    aw ≤ totalAvailable cfg ∧
    (aw = totalAvailable cfg ↔
      (res.length = (discover cfg.entries).length ∧ ∀ r ∈ res, r.status = "Passed")) ∧
    (∀ (c : CaseDir) (pv : Int) (r : RunResult) (award : Int),
        run_case cfg c pv = .recordedContinue r award → award ≠ 0 →
        get_diffS c.clientRecord c.capturedClient ("Client") = none ∧
        get_diffS c.serverRecord c.capturedServer ("Server") = none ∧ award = pv) := by
  have hloop := run_tests_report hrun
  obtain ⟨hb, he⟩ := run_tests_loop_bound cfg (discover cfg.entries) res aw tot hpos hloop
  exact ⟨hb, he, fun c pv r award h ha => run_case_award_pass h ha⟩

theorem claim_C1_amended_witness :
    (run_tests cfgOk = .ok (.report [⟨"t1", "Passed", 10, "Outputs match"⟩] 10 10) ∧
      (∀ c ∈ discover cfgOk.entries, 0 < pvOf c)) ∧
    (10 : Int) ≤ totalAvailable cfgOk :=
  ⟨⟨rfl, by decide⟩,
    (claim_C1_amended cfgOk [⟨"t1", "Passed", 10, "Outputs match"⟩] 10 10 rfl (by decide)).1⟩

/-- C3 (amended): a report returned by get_diff is at most
label.length + 11 + 2000 characters long (the label, the " mismatch:" line
and the diff body truncated to 2000 characters), and the reason recorded in
a Failed result, built from at most two such reports with label "Client" or
"Server" plus a newline each, is at most 4036 characters long. -/
theorem claim_C3_amended :
    (∀ (f1 f2 label r : List Char), get_diff f1 f2 label = some r →
      r.length ≤ label.length + 2011) ∧
    (∀ (cfg : Config) (res : List RunResult) (aw tot : Int),
      run_tests cfg = .ok (.report res aw tot) →
      ∀ r ∈ res, r.status = "Failed" → r.reason.length ≤ 4036) := by
  constructor
  · intro f1 f2 label r h
    exact get_diff_length_bound h
  · intro cfg res aw tot hrun r hr hstat
    have hloop := run_tests_report hrun
    obtain ⟨c, -, pv, -, hcase⟩ :=
      run_tests_loop_mem cfg (discover cfg.entries) res aw tot hloop r hr
    exact run_case_failed_reason hcase hstat

theorem claim_C3_amended_witness :
    get_diff ("x".data) ("y".data) ("L".data) =
      some (("L mismatch:\n--- expected\n+++ actual\n@@ -1 +1 @@\n-x+y").data) ∧
    (("L mismatch:\n--- expected\n+++ actual\n@@ -1 +1 @@\n-x+y").data).length ≤
      ("L".data).length + 2011 :=
  ⟨rfl, claim_C3_amended.1 ("x".data) ("y".data) ("L".data) _ rfl⟩

end AutoGrading
